import Mathlib

/-!
Verification of the `heavy_metal_data` repository's scrape/clean pipeline
(`src/code/scrap_data.py` and `src/web_scrapping/scrap_test_data.py`).

Python strings are modelled as `List Char`; pandas DataFrames as `List Row`;
float scores as `ℚ` (all scores are exact multiples of 0.5); a fallible parse
(an uncaught `AttributeError`) as `Except Unit`.
-/

namespace HeavyMetal

/-- Convert a Lean string literal to the `List Char` model of Python strings. -/
def chars (s : String) : List Char := s.toList

/-- ASCII whitespace, as recognised by Python's `str.strip` and the regex
class `\s` on the characters that occur in this data (the full Unicode
whitespace class is larger but never arises in the claims). -/
def pyIsSpace (c : Char) : Bool :=
  c = ' ' || c = '\t' || c = '\n' || c = '\r' || c = '\x0b' || c = '\x0c'

/-- Python `str.lstrip()` (no argument): drop leading whitespace. -/
def lstripWs (l : List Char) : List Char := l.dropWhile pyIsSpace

/-- Right-strip whitespace, as in the tail of Python `str.strip()`. -/
def rstripWs (l : List Char) : List Char := (l.reverse.dropWhile pyIsSpace).reverse

/-- Python `str.strip()` with no argument: trim both ends. -/
def pyStrip (l : List Char) : List Char := rstripWs (lstripWs l)

/-- Python substring containment `pat in s`: `pat` occurs contiguously in `s`. -/
def strContains (s pat : List Char) : Bool :=
  match s with
  | [] => pat.isEmpty
  | _ :: t => pat.isPrefixOf s || strContains t pat

/-- The em-dash-like separator used by the review site (U+2013). -/
def sepDash : Char := '–'

/-- From `src/code/scrap_data.py`, lines 71-79. One review's title text split into
band and album: Python `band_album.split('–', 1)` with both sides stripped
when the separator occurs, otherwise the whole title is the band and the
album is the empty string. -/
def parseTitle (band_album : List Char) : List Char × List Char :=
  if band_album.contains sepDash then
    let band := band_album.takeWhile (fun c => c ≠ sepDash)
    let album := (band_album.dropWhile (fun c => c ≠ sepDash)).tail
    (pyStrip band, pyStrip album)
  else
    (band_album, [])

/-- One `<a>` link of a review block's metadata region. -/
structure Link where
  href : List Char
  text : List Char
deriving DecidableEq

/-- One review block (`article.category-reviews`): the text of its
`h2.entry-title` when present, and the links of its `div.entry-meta` when
that div is present (`none` models `review.find(...)` returning `None`). -/
structure ReviewBlock where
  title : Option (List Char)
  entryMeta : Option (List Link)
deriving DecidableEq

/-- One row of the scraped DataFrame.  `Genres` is `Option` because the
cleaner guards against a missing (NaN) value with `pd.notna`; the scraper
itself always stores a string. -/
structure Row where
  Band : List Char
  Album : List Char
  Genres : Option (List Char)
  Score : ℚ
deriving DecidableEq

/-- Python `', '.join genres`. -/
def joinComma : List (List Char) → List Char
  | [] => []
  | [g] => g
  | g :: g2 :: t => g ++ chars ", " ++ joinComma (g2 :: t)

/-- From `src/code/scrap_data.py`, lines 68-90, `AngryMetalGuyScraper._parse_review`.
A missing title yields the placeholder band `"Unknown"`; a missing
`entry-meta` div makes `review.find('div', class_='entry-meta').find_all('a')`
raise `AttributeError` on `None`, modelled as `Except.error ()`.  Genre link
texts are kept in order for links whose `href` contains `"/tag/"` and joined
with `", "`. -/
def parseReview (review : ReviewBlock) (score : ℚ) : Except Unit Row :=
  let band_album := review.title.getD (chars "Unknown")
  let ba := parseTitle band_album
  match review.entryMeta with
  | none => Except.error ()
  | some links =>
      let genres := (links.filter (fun l => strContains l.href (chars "/tag/"))).map Link.text
      Except.ok { Band := ba.1, Album := ba.2, Genres := some (joinComma genres), Score := score }

/-- From `src/code/scrap_data.py`, line 119: keep `x.split(',')[0]` when the value
is not NaN, else the empty string.  `split(',')[0]` is the prefix before the
first comma. -/
def reduceGenres (g : Option (List Char)) : List Char :=
  match g with
  | some x => x.takeWhile (fun c => c ≠ ',')
  | none => []

/-- From `src/code/scrap_data.py`, line 122: `str.replace(r'\s*Review$', '', regex=True)`.
`re.sub` removes the (unique) match of `\s*Review` anchored at the end of the
string; `$` also matches just before a final newline, and `\s*` greedily
absorbs all whitespace immediately preceding `Review`. -/
def cleanAlbum (a : List Char) : List Char :=
  if (chars "Review").isSuffixOf a then
    rstripWs (a.take (a.length - 6))
  else if a.getLast? = some '\n' ∧ (chars "Review").isSuffixOf a.dropLast then
    rstripWs (a.dropLast.take (a.dropLast.length - 6)) ++ ['\n']
  else
    a

/-- From `src/code/scrap_data.py`, lines 125-128: nested `np.where` over
`str.contains`: a genre containing `"Black Metal"` becomes exactly
`"Black Metal"`; else one containing `"Death Metal"` becomes exactly
`"Death Metal"`; else it is left unchanged. -/
def normalizeGenre (g : List Char) : List Char :=
  if strContains g (chars "Black Metal") then chars "Black Metal"
  else if strContains g (chars "Death Metal") then chars "Death Metal"
  else g

/-- The per-row effect of `AngryMetalGuyCleaner.clean` (lines 117-130): the
three column updates act independently on each row; `Band` and `Score` are
untouched. -/
def cleanRow (r : Row) : Row :=
  { Band := r.Band
    Album := cleanAlbum r.Album
    Genres := some (normalizeGenre (reduceGenres r.Genres))
    Score := r.Score }

/-- From `src/code/scrap_data.py`, lines 103-130, `AngryMetalGuyCleaner.clean`.
The Python body starts with `df = df.copy()` and only ever assigns columns of
the copy, so the function is pure: here it is the row-wise map. -/
def clean (df : List Row) : List Row := df.map cleanRow

/-- The result of one `requests.get` for a listing page: the HTTP status and
the review blocks the parsed page exposes. -/
structure PageResult where
  status : Nat
  reviews : List ReviewBlock
deriving DecidableEq

/-- The per-iteration appends `self.data.append(self._parse_review(review, score))`
of `scrape`: parse each block in order, propagating the first raised error. -/
def mapExcept (f : ReviewBlock → Except Unit Row) : List ReviewBlock → Except Unit (List Row)
  | [] => Except.ok []
  | b :: l =>
      match f b with
      | Except.error e => Except.error e
      | Except.ok r =>
          match mapExcept f l with
          | Except.error e => Except.error e
          | Except.ok rs => Except.ok (r :: rs)

/-- From `src/code/scrap_data.py`, lines 46-66: the inner `while True` pagination
loop of `scrape` for one category.  `fetch page` models
`requests.get(f"{base_url}page/{page}/")`; a non-200 status or a page with no
review blocks ends the loop normally.  The Python loop is unbounded; `fuel`
bounds the number of pages visited (exhausted fuel ends the loop with what
was gathered — the loop body is otherwise translated verbatim). -/
def scrapeCategory (fetch : Nat → PageResult) (score : ℚ) : Nat → Nat → Except Unit (List Row)
  | 0, _ => Except.ok []
  | fuel + 1, page =>
      if (fetch page).status ≠ 200 then Except.ok []
      else if (fetch page).reviews.isEmpty then Except.ok []
      else
        match mapExcept (fun rv => parseReview rv score) (fetch page).reviews with
        | Except.error e => Except.error e
        | Except.ok recs =>
            match scrapeCategory fetch score fuel (page + 1) with
            | Except.error e => Except.error e
            | Except.ok rest => Except.ok (recs ++ rest)

/-- From `src/code/scrap_data.py`, lines 43-66, `AngryMetalGuyScraper.scrape`:
iterate the categories of `self.score_urls` in order, accumulating every
category's records into `self.data`. -/
def scrape (fetch : List Char → Nat → PageResult) (fuel : Nat) :
    List (List Char × ℚ) → Except Unit (List Row)
  | [] => Except.ok []
  | (base_url, score) :: rest =>
      match scrapeCategory (fetch base_url) score fuel 1 with
      | Except.error e => Except.error e
      | Except.ok recs =>
          match scrape fetch fuel rest with
          | Except.error e => Except.error e
          | Except.ok more => Except.ok (recs ++ more)

/-- From `src/code/scrap_data.py`, lines 11-22: the ten score-tag URLs in the
insertion order of the Python dict. -/
def SCORE_TAG_URLS : List (List Char × ℚ) :=
  [ (chars "https://www.angrymetalguy.com/tag/50/", 5.0),
    (chars "https://www.angrymetalguy.com/tag/45/", 4.5),
    (chars "https://www.angrymetalguy.com/tag/40/", 4.0),
    (chars "https://www.angrymetalguy.com/tag/35/", 3.5),
    (chars "https://www.angrymetalguy.com/tag/30/", 3.0),
    (chars "https://www.angrymetalguy.com/tag/2-5/", 2.5),
    (chars "https://www.angrymetalguy.com/tag/20/", 2.0),
    (chars "https://www.angrymetalguy.com/tag/15/", 1.5),
    (chars "https://www.angrymetalguy.com/tag/1-0/", 1.0),
    (chars "https://www.angrymetalguy.com/tag/0-5/", 0.5) ]

/-- Python `re.fullmatch(r'[A-Z]', band)`: the whole string is one ASCII capital. -/
def fullmatchUpper (b : List Char) : Bool :=
  match b with
  | [c] => 'A' ≤ c && c ≤ 'Z'
  | _ => false

/-- Python `re.match(r'^[0-9A-Z]', band)`: the first character is an ASCII digit or
capital letter. -/
def matchStartAlnumUpper (b : List Char) : Bool :=
  match b with
  | [] => false
  | c :: _ => ('0' ≤ c && c ≤ '9') || ('A' ≤ c && c ≤ 'Z')

/-- From `src/web_scrapping/scrap_test_data.py`, lines 86-108, `clean_band_list`:
strip each entry, skip empties, the literal `"0–9"` header, and single
capital letters, and keep an entry only when it starts with a digit or a
capital letter. -/
def clean_band_list : List (List Char) → List (List Char)
  | [] => []
  | b :: rest =>
      if pyStrip b = [] then clean_band_list rest
      else if pyStrip b = chars "0–9" then clean_band_list rest
      else if fullmatchUpper (pyStrip b) then clean_band_list rest
      else if matchStartAlnumUpper (pyStrip b) then pyStrip b :: clean_band_list rest
      else clean_band_list rest

/-- The cleaning filter of the spec, phrased as one predicate: drop empties,
the `"0–9"` header token and single capital letters, keep entries starting
with a digit or capital. -/
def keepSpec (b : List Char) : Bool :=
  !b.isEmpty && (b != chars "0–9") && !fullmatchUpper b && matchStartAlnumUpper b

/-! ### Concrete inputs used by counterexamples and witnesses -/

/-- A one-row DataFrame whose album text `"Review Review"` shows `clean` is
not idempotent. -/
def df0 : List Row :=
  [{ Band := chars "X", Album := chars "Review Review",
     Genres := some (chars "Doom"), Score := 5.0 }]

/-- A one-row DataFrame on which `clean` is idempotent. -/
def wdf : List Row :=
  [{ Band := chars "Deafheaven", Album := chars "Sunbather Review",
     Genres := some (chars "Black Metal, Shoegaze"), Score := 5.0 }]

/-- A review block whose metadata region is present but holds no tag links. -/
def blkW : ReviewBlock := { title := some (chars "T"), entryMeta := some [] }

/-- The record `parseReview` produces for `blkW` at score 5.0. -/
def wr5 : Row := { Band := chars "T", Album := [], Genres := some [], Score := 5.0 }

/-- A fetch in which only page 1 of the 5.0 category answers 200 with one
review block (an absent title and an empty metadata region); everything else
is 404. -/
def wfetch (url : List Char) (page : Nat) : PageResult :=
  if url = chars "https://www.angrymetalguy.com/tag/50/" ∧ page = 1 then
    { status := 200, reviews := [{ title := none, entryMeta := some [] }] }
  else
    { status := 404, reviews := [] }

/-- The single record scraped through `wfetch`. -/
def wrow : Row := { Band := chars "Unknown", Album := [], Genres := some [], Score := 5.0 }

/-- A fetch that always answers 404. -/
def fetch404 : List Char → Nat → PageResult := fun _ _ => { status := 404, reviews := [] }

/-! ### Shared helper lemmas -/

theorem dropWhile_all_append (p : Char → Bool) (w l : List Char)
    (hw : ∀ c ∈ w, p c = true) : (w ++ l).dropWhile p = l.dropWhile p := by
  induction w with
  | nil => rfl
  | cons c t ih =>
      simp only [List.cons_append, List.dropWhile_cons]
      rw [hw c (List.mem_cons_self c t)]
      simpa using ih (fun d hd => hw d (List.mem_cons_of_mem c hd))

theorem rstripWs_append_ws (b w : List Char) (hw : ∀ c ∈ w, pyIsSpace c = true) :
    rstripWs (b ++ w) = rstripWs b := by
  unfold rstripWs
  rw [List.reverse_append,
    dropWhile_all_append _ _ _ (fun c hc => hw c (List.mem_reverse.mp hc))]

theorem dropWhile_eq_self_head (p : Char → Bool) (c : Char) (t : List Char)
    (h : (c :: t).dropWhile p = c :: t) : p c = false := by
  by_contra hc
  rw [Bool.not_eq_false] at hc
  rw [List.dropWhile_cons, if_pos hc] at h
  have hlen := congrArg List.length h
  have hle := (List.dropWhile_sublist (l := t) (p := p)).length_le
  simp only [List.length_cons] at hlen
  omega

theorem takeWhile_ne_append (x : Char) (l r : List Char) (hx : x ∉ l) :
    (l ++ x :: r).takeWhile (fun c => c ≠ x) = l := by
  induction l with
  | nil => simp
  | cons c t ih =>
      have hcx : c ≠ x := fun he => hx (he ▸ List.mem_cons_self c t)
      rw [List.cons_append, List.takeWhile_cons, if_pos (decide_eq_true hcx),
        ih (fun hm => hx (List.mem_cons_of_mem c hm))]

theorem dropWhile_ne_append (x : Char) (l r : List Char) (hx : x ∉ l) :
    (l ++ x :: r).dropWhile (fun c => c ≠ x) = x :: r := by
  induction l with
  | nil => simp
  | cons c t ih =>
      have hcx : c ≠ x := fun he => hx (he ▸ List.mem_cons_self c t)
      rw [List.cons_append, List.dropWhile_cons, if_pos (decide_eq_true hcx)]
      exact ih (fun hm => hx (List.mem_cons_of_mem c hm))

theorem isPrefixOf_iff_exists (p s : List Char) :
    p.isPrefixOf s = true ↔ ∃ v, s = p ++ v := by
  rw [ List.isPrefixOf_iff_prefix]
  exact ⟨fun ⟨v, hv⟩ => ⟨v, hv.symm⟩, fun ⟨v, hv⟩ => ⟨v, hv.symm⟩⟩

theorem isSuffixOf_iff_exists (p s : List Char) :
    p.isSuffixOf s = true ↔ ∃ u, s = u ++ p := by
  rw [List.isSuffixOf_iff_suffix]
  exact ⟨fun ⟨u, hu⟩ => ⟨u, hu.symm⟩, fun ⟨u, hu⟩ => ⟨u, hu.symm⟩⟩

theorem strContains_iff (s pat : List Char) :
    strContains s pat = true ↔ ∃ u v, s = u ++ pat ++ v := by
  induction s with
  | nil =>
      simp only [strContains, List.isEmpty_iff]
      constructor
      · rintro rfl; exact ⟨[], [], rfl⟩
      · rintro ⟨u, v, h⟩
        rcases List.append_eq_nil.mp (List.append_eq_nil.mp h.symm).1 with ⟨-, h2⟩
        exact h2
  | cons c t ih =>
      simp only [strContains, Bool.or_eq_true, ih, isPrefixOf_iff_exists]
      constructor
      · rintro (⟨v, hv⟩ | ⟨u, v, huv⟩)
        · exact ⟨[], v, by simpa using hv⟩
        · exact ⟨c :: u, v, by simp [huv]⟩
      · rintro ⟨u, v, huv⟩
        cases u with
        | nil => exact Or.inl ⟨v, by simpa using huv⟩
        | cons c2 u2 =>
            simp only [List.cons_append, List.cons.injEq] at huv
            exact Or.inr ⟨u2, v, huv.2⟩

theorem isSuffixOf_append (u v : List Char) : v.isSuffixOf (u ++ v) = true :=
  List.isSuffixOf_iff_suffix.mpr ⟨u, rfl⟩

/-- A string on which neither branch of the `\s*Review$` rewrite fires —
`"Review"` is not its suffix and, when it ends in a newline, not the suffix
of the string without that newline — is left unchanged. -/
theorem cleanAlbum_no_review (a : List Char)
    (h1 : (chars "Review").isSuffixOf a = false)
    (h2 : a.getLast? = some '\n' → (chars "Review").isSuffixOf a.dropLast = false) :
    cleanAlbum a = a := by
  unfold cleanAlbum
  rw [if_neg (by simp [h1]), if_neg (fun hc => absurd hc.2 (by simp [h2 hc.1]))]

/-- A list ending in a final newline never has `"Review"` as a suffix. -/
theorem not_review_suffix_newline (X : List Char) :
    (chars "Review").isSuffixOf (X ++ ['\n']) = false := by
  cases hcase : (chars "Review").isSuffixOf (X ++ ['\n']) with
  | false => rfl
  | true =>
      exfalso
      obtain ⟨u, hu⟩ := (isSuffixOf_iff_exists _ _).mp hcase
      have hlast := congrArg List.getLast? hu
      rw [show chars "Review" = chars "Revie" ++ ['w'] from rfl,
        ← List.append_assoc] at hlast
      simp at hlast

theorem lstrip_cons_false (c : Char) (t : List Char) (hc : pyIsSpace c = false) :
    lstripWs (c :: t) = c :: t := by
  simp [lstripWs, List.dropWhile_cons, hc]

theorem lstrip_append_self (x y : List Char) (hx : lstripWs x = x) (hxne : x ≠ []) :
    lstripWs (x ++ y) = x ++ y := by
  cases x with
  | nil => exact absurd rfl hxne
  | cons c t =>
      have hc : pyIsSpace c = false := dropWhile_eq_self_head pyIsSpace c t hx
      rw [List.cons_append]
      exact lstrip_cons_false c (t ++ y) hc

theorem rstrip_append_self (x y : List Char) (hx : rstripWs x = x) (hxne : x ≠ []) :
    rstripWs (y ++ x) = y ++ x := by
  have hrev : x.reverse.dropWhile pyIsSpace = x.reverse := by
    have := congrArg List.reverse hx
    rwa [rstripWs, List.reverse_reverse] at this
  cases hx2 : x.reverse with
  | nil => exact absurd (by simpa using congrArg List.reverse hx2) hxne
  | cons d t3 =>
      have hd : pyIsSpace d = false := dropWhile_eq_self_head pyIsSpace d t3 (hx2 ▸ hrev)
      rw [rstripWs, List.reverse_append, hx2, List.cons_append,
        List.dropWhile_cons, if_neg (by simp [hd]), ← List.cons_append, ← hx2,
        ← List.reverse_append, List.reverse_reverse]

/-! ### C2: title parsing -/

theorem parseTitle_no_sep (t : List Char) (ht : sepDash ∉ t) : parseTitle t = (t, []) := by
  unfold parseTitle
  rw [if_neg (fun hc => ht (List.elem_iff.mp hc))]

theorem parseTitle_split (l r : List Char) (hl : sepDash ∉ l) :
    parseTitle (l ++ sepDash :: r) = (pyStrip l, pyStrip r) := by
  have hmem : (l ++ sepDash :: r).contains sepDash = true :=
    List.elem_iff.mpr (List.mem_append.mpr (Or.inr (List.mem_cons_self _ _)))
  unfold parseTitle
  rw [if_pos hmem]
  simp only [takeWhile_ne_append sepDash l r hl, dropWhile_ne_append sepDash l r hl,
    List.tail_cons]

/-- C2 (corrected claim is false): `"Band–Album"` contains the glyph and is
split and trimmed to `("Band", "Album")`, but rejoining with `" – "` and
trimming yields `"Band – Album"`, which differs from the original trimmed
title. -/
theorem c2_counterexample :
    parseTitle (chars "Band–Album") = (chars "Band", chars "Album") ∧
    pyStrip (chars "Band" ++ chars " – " ++ chars "Album") ≠
      pyStrip (chars "Band–Album") := by
  decide

/-- C2 amended: for every title containing the glyph the parser splits on the
first occurrence and trims both sides, and for titles without the glyph the
band is the whole title and the album is `""`; the rejoin-and-trim round trip
holds when the first glyph occurrence is flanked by single spaces and both
sides are non-empty and already trimmed (as in the site's `"Band – Album"`
titles), but not for arbitrary titles containing the glyph. -/
theorem c2_title_parsing :
    (∀ t : List Char, sepDash ∉ t → parseTitle t = (t, []))
    ∧ (∀ l r : List Char, sepDash ∉ l →
        parseTitle (l ++ sepDash :: r) = (pyStrip l, pyStrip r))
    ∧ (∀ b a : List Char, sepDash ∉ b → b ≠ [] → a ≠ [] →
        lstripWs b = b → rstripWs b = b → lstripWs a = a → rstripWs a = a →
        parseTitle (b ++ chars " – " ++ a) = (b, a) ∧
        pyStrip (b ++ chars " – " ++ a) = b ++ chars " – " ++ a) := by
  refine ⟨parseTitle_no_sep, parseTitle_split, ?_⟩
  intro b a hb hbne hane hlb hrb hla hra
  have hsplit : b ++ chars " – " ++ a = (b ++ [' ']) ++ sepDash :: ' ' :: a := by
    rw [show chars " – " = [' ', sepDash, ' '] from rfl]
    simp
  constructor
  · rw [hsplit, parseTitle_split (b ++ [' ']) (' ' :: a) ?nm]
    case nm =>
      intro hm
      rcases List.mem_append.mp hm with h1 | h1
      · exact hb h1
      · simp only [List.mem_singleton] at h1
        exact absurd h1 (by decide)
    have h1 : pyStrip (b ++ [' ']) = b := by
      rw [pyStrip, lstrip_append_self b [' '] hlb hbne,
        rstripWs_append_ws b [' '] (by decide), hrb]
    have h2 : pyStrip (' ' :: a) = a := by
      rw [pyStrip, show lstripWs (' ' :: a) = lstripWs a from rfl, hla, hra]
    rw [h1, h2]
  · have hs1 : lstripWs (b ++ chars " – " ++ a) = b ++ chars " – " ++ a := by
      rw [List.append_assoc]
      rw [lstrip_append_self b (chars " – " ++ a) hlb hbne, ← List.append_assoc]
    have hs2 : rstripWs (b ++ chars " – " ++ a) = b ++ chars " – " ++ a :=
      rstrip_append_self a (b ++ chars " – ") hra hane
    rw [pyStrip, hs1, hs2]

/-- C2 witness: the amended round-trip statement at the concrete title
`"Deafheaven – Sunbather"`. -/
theorem c2_witness :
    parseTitle (chars "Deafheaven" ++ chars " – " ++ chars "Sunbather") =
      (chars "Deafheaven", chars "Sunbather") ∧
    pyStrip (chars "Deafheaven" ++ chars " – " ++ chars "Sunbather") =
      chars "Deafheaven" ++ chars " – " ++ chars "Sunbather" :=
  c2_title_parsing.2.2 (chars "Deafheaven") (chars "Sunbather")
    (by decide) (by decide) (by decide) (by decide) (by decide) (by decide) (by decide)

/-! ### C3: album " Review" suffix stripping -/

/-- C3 (corrected claim is false): the regex `\s*Review$` is not anchored on a
preceding space, so `"AntiReview"`, which does not end in the literal
`" Review"`, is still rewritten to `"Anti"` instead of being left unchanged. -/
theorem c3_counterexample :
    cleanAlbum (chars "AntiReview") = chars "Anti" ∧
    cleanAlbum (chars "AntiReview") ≠ chars "AntiReview" := by decide

/-- C3 amended: cleaning strips a trailing `"Review"` (case-sensitive,
anchored at the end of the string or just before a final newline) together
with all immediately preceding whitespace — zero or more characters, not
exactly one space; a string is returned unchanged exactly when `"Review"` is
not its suffix and, if it ends in a newline, also not the suffix of the
string without that newline; in particular `"Sunbather Review"` becomes
`"Sunbather"` and `"Panopticon"` is unchanged. -/
theorem c3_album_strip :
    (∀ b w : List Char, (∀ c ∈ w, pyIsSpace c = true) → rstripWs b = b →
      cleanAlbum (b ++ w ++ chars "Review") = b)
    ∧ (∀ b w : List Char, (∀ c ∈ w, pyIsSpace c = true) → rstripWs b = b →
      cleanAlbum (b ++ w ++ chars "Review" ++ ['\n']) = b ++ ['\n'])
    ∧ (∀ a : List Char, (chars "Review").isSuffixOf a = false →
        (a.getLast? = some '\n' → (chars "Review").isSuffixOf a.dropLast = false) →
        cleanAlbum a = a)
    ∧ cleanAlbum (chars "Sunbather Review") = chars "Sunbather"
    ∧ cleanAlbum (chars "Panopticon") = chars "Panopticon" := by
  refine ⟨?_, ?_, cleanAlbum_no_review, by decide, by decide⟩
  · intro b w hw hb
    have hsuf : (chars "Review").isSuffixOf (b ++ w ++ chars "Review") = true :=
      isSuffixOf_append (b ++ w) _
    unfold cleanAlbum
    rw [if_pos hsuf]
    have hlen : (b ++ w ++ chars "Review").length = (b ++ w).length + 6 := by
      rw [List.length_append]; rfl
    rw [hlen]
    simp only [Nat.add_sub_cancel]
    rw [List.take_left' rfl, rstripWs_append_ws b w hw, hb]
  · intro b w hw hb
    have hdrop : (b ++ w ++ chars "Review" ++ ['\n']).dropLast = b ++ w ++ chars "Review" := by
      simp
    unfold cleanAlbum
    rw [if_neg (by
        simp only [not_review_suffix_newline (b ++ w ++ chars "Review")]
        simp),
      if_pos ⟨by simp, by rw [hdrop]; exact isSuffixOf_append (b ++ w) _⟩, hdrop]
    have hlen : (b ++ w ++ chars "Review").length = (b ++ w).length + 6 := by
      rw [List.length_append]; rfl
    rw [hlen]
    simp only [Nat.add_sub_cancel]
    rw [List.take_left' rfl, rstripWs_append_ws b w hw, hb]

/-- C3 witness: concrete instances of all three clauses of the amended
statement — two spaces before the suffix, the suffix before a final newline,
and the unchanged strings `"Reviews"` and `"My Review "`. -/
theorem c3_witness :
    (∀ c ∈ [' ', ' '], pyIsSpace c = true) ∧ rstripWs (chars "X") = chars "X" ∧
    cleanAlbum (chars "X" ++ [' ', ' '] ++ chars "Review") = chars "X" ∧
    cleanAlbum (chars "X" ++ [' '] ++ chars "Review" ++ ['\n']) = chars "X" ++ ['\n'] ∧
    cleanAlbum (chars "Reviews") = chars "Reviews" ∧
    cleanAlbum (chars "My Review ") = chars "My Review " :=
  ⟨by decide, by decide,
    c3_album_strip.1 (chars "X") [' ', ' '] (by decide) (by decide),
    c3_album_strip.2.1 (chars "X") [' '] (by decide) (by decide),
    c3_album_strip.2.2.1 (chars "Reviews") (by decide) (by decide),
    c3_album_strip.2.2.1 (chars "My Review ") (by decide) (by decide)⟩

/-! ### C4: genre normalization -/

/-- C4 confirmed: any reduced genre containing `"Black Metal"` as a substring
normalizes to exactly `"Black Metal"`; otherwise one containing
`"Death Metal"` normalizes to exactly `"Death Metal"`; otherwise it is
unchanged; `"Melodic Black Metal/Death Metal"` normalizes to
`"Black Metal"` because the Black Metal test comes first. -/
theorem c4_genre_normalization (g : List Char) :
    ((∃ u v, g = u ++ chars "Black Metal" ++ v) → normalizeGenre g = chars "Black Metal")
    ∧ (¬ (∃ u v, g = u ++ chars "Black Metal" ++ v) →
        (∃ u v, g = u ++ chars "Death Metal" ++ v) → normalizeGenre g = chars "Death Metal")
    ∧ (¬ (∃ u v, g = u ++ chars "Black Metal" ++ v) →
        ¬ (∃ u v, g = u ++ chars "Death Metal" ++ v) → normalizeGenre g = g)
    ∧ normalizeGenre (chars "Melodic Black Metal/Death Metal") = chars "Black Metal" := by
  refine ⟨?_, ?_, ?_, by decide⟩
  · intro h
    have hb : strContains g (chars "Black Metal") = true := (strContains_iff g _).mpr h
    simp [normalizeGenre, hb]
  · intro hnb hd
    have hb : strContains g (chars "Black Metal") = false := by
      rw [← Bool.not_eq_true]; exact fun hc => hnb ((strContains_iff g _).mp hc)
    have hdm : strContains g (chars "Death Metal") = true := (strContains_iff g _).mpr hd
    simp [normalizeGenre, hb, hdm]
  · intro hnb hnd
    have hb : strContains g (chars "Black Metal") = false := by
      rw [← Bool.not_eq_true]; exact fun hc => hnb ((strContains_iff g _).mp hc)
    have hdm : strContains g (chars "Death Metal") = false := by
      rw [← Bool.not_eq_true]; exact fun hc => hnd ((strContains_iff g _).mp hc)
    simp [normalizeGenre, hb, hdm]

/-- C4 witness: `"Melodic Black Metal"` contains `"Black Metal"` and maps to
exactly `"Black Metal"`. -/
theorem c4_witness :
    (∃ u v, chars "Melodic Black Metal" = u ++ chars "Black Metal" ++ v) ∧
    normalizeGenre (chars "Melodic Black Metal") = chars "Black Metal" :=
  ⟨⟨chars "Melodic ", [], by decide⟩,
    (c4_genre_normalization (chars "Melodic Black Metal")).1 ⟨chars "Melodic ", [], by decide⟩⟩

/-! ### C1: idempotence of the Record Cleaner -/

theorem takeWhile_comma_stable (y : List Char)
    (hy : y.takeWhile (fun c => c ≠ ',') = y) :
    (normalizeGenre y).takeWhile (fun c => c ≠ ',') = normalizeGenre y := by
  unfold normalizeGenre
  split
  · decide
  · split
    · decide
    · exact hy

theorem normalizeGenre_idem (y : List Char) :
    normalizeGenre (normalizeGenre y) = normalizeGenre y := by
  by_cases hb : strContains y (chars "Black Metal") = true
  · rw [show normalizeGenre y = chars "Black Metal" from by simp [normalizeGenre, hb]]
    decide
  · by_cases hd : strContains y (chars "Death Metal") = true
    · rw [show normalizeGenre y = chars "Death Metal" from by
        simp [normalizeGenre, hb, hd]]
      decide
    · have h0 : normalizeGenre y = y := by simp [normalizeGenre, hb, hd]
      rw [h0]
      exact h0

theorem genre_clean_idem (g : Option (List Char)) :
    normalizeGenre (reduceGenres (some (normalizeGenre (reduceGenres g)))) =
      normalizeGenre (reduceGenres g) := by
  have hy : (reduceGenres g).takeWhile (fun c => c ≠ ',') = reduceGenres g := by
    cases g with
    | none => rfl
    | some x =>
        show (x.takeWhile (fun c => c ≠ ',')).takeWhile (fun c => c ≠ ',') =
          x.takeWhile (fun c => c ≠ ',')
        apply List.takeWhile_eq_self_iff.mpr
        intro c hc
        have h5 := List.mem_takeWhile_imp hc
        exact h5
  rw [show reduceGenres (some (normalizeGenre (reduceGenres g))) =
      normalizeGenre (reduceGenres g) from takeWhile_comma_stable _ hy]
  exact normalizeGenre_idem _

/-- C1 (corrected claim is false): cleaning `df0` once turns the album
`"Review Review"` into `"Review"`, and cleaning again strips it to `""`, so
`clean (clean df0) ≠ clean df0`. -/
theorem c1_counterexample : clean (clean df0) ≠ clean df0 :=
  fun h =>
    (by decide : ¬ ((clean (clean df0)).map Row.Album = (clean df0).map Row.Album))
      (congrArg (List.map Row.Album) h)

/-- C1 amended: `clean` is idempotent on every DataFrame in which no album
text, after one cleaning, still ends in `"Review"` — either at the very end
or just before a final newline, the exact guard under which the album
rewrite cannot fire a second time (the Band, Score and Genres columns are
always stable under re-cleaning; only the album rewrite can fire twice, as
on `"Review Review"`). -/
theorem c1_clean_idempotent (df : List Row)
    (h : ∀ r ∈ df, (chars "Review").isSuffixOf (cleanAlbum r.Album) = false ∧
        ((cleanAlbum r.Album).getLast? = some '\n' →
          (chars "Review").isSuffixOf (cleanAlbum r.Album).dropLast = false)) :
    clean (clean df) = clean df := by
  unfold clean
  rw [List.map_map]
  apply List.map_congr_left
  intro r hr
  obtain ⟨h1, h2⟩ := h r hr
  show cleanRow (cleanRow r) = cleanRow r
  simp only [cleanRow]
  rw [cleanAlbum_no_review _ h1 h2, genre_clean_idem r.Genres]

/-- C1 witness: the amended statement at the one-row DataFrame `wdf`. -/
theorem c1_witness :
    (∀ r ∈ wdf, (chars "Review").isSuffixOf (cleanAlbum r.Album) = false ∧
        ((cleanAlbum r.Album).getLast? = some '\n' →
          (chars "Review").isSuffixOf (cleanAlbum r.Album).dropLast = false)) ∧
    clean (clean wdf) = clean wdf :=
  ⟨by decide, c1_clean_idempotent wdf (by decide)⟩

/-! ### C5: missing metadata region -/

/-- C5 (corrected claim is false): on a review block whose genre-metadata
region is absent the parser does not return a record at all — the Python
code calls `.find_all` on `None` and raises, modelled as `Except.error`. -/
theorem c5_counterexample :
    parseReview { title := some (chars "A – B"), entryMeta := none } 5.0 =
      Except.error () := rfl

/-- C5 amended: when the metadata region is present the parser always returns
a record and never raises, and if the region holds no tag links the stored
genre list is empty; when the region itself is absent the parser raises. -/
theorem c5_parse_permissive :
    (∀ (blk : ReviewBlock) (score : ℚ), blk.entryMeta = none →
        parseReview blk score = Except.error ())
    ∧ (∀ (blk : ReviewBlock) (links : List Link) (score : ℚ),
        blk.entryMeta = some links →
        parseReview blk score ≠ Except.error () ∧
        (links.filter (fun l => strContains l.href (chars "/tag/")) = [] →
          ∀ r : Row, parseReview blk score = Except.ok r → r.Genres = some [])) := by
  constructor
  · intro blk score h
    simp [parseReview, h]
  · intro blk links score h
    constructor
    · simp [parseReview, h]
    · intro hf r hr
      simp only [parseReview, h, hf, List.map_nil, Except.ok.injEq] at hr
      rw [← hr]
      rfl

/-- C5 witness: the amended statement at the concrete block `blkW` (metadata
region present, no tag links). -/
theorem c5_witness :
    blkW.entryMeta = some [] ∧ parseReview blkW 5.0 ≠ Except.error () ∧
    wr5.Genres = some [] :=
  ⟨rfl, (c5_parse_permissive.2 blkW [] 5.0 rfl).1,
    (c5_parse_permissive.2 blkW [] 5.0 rfl).2 rfl wr5 rfl⟩

/-! ### C6: genre storage and reduction -/

/-- C6 (corrected claim is false): a single tag text containing a comma is
stored unchanged, but cleaning keeps only the part before its first comma —
`"Doom, Stoner Metal"` is reduced to `"Doom"`, not to the first entry of the
stored list. -/
theorem c6_counterexample :
    joinComma [chars "Doom, Stoner Metal"] = chars "Doom, Stoner Metal" ∧
    reduceGenres (some (joinComma [chars "Doom, Stoner Metal"])) ≠
      chars "Doom, Stoner Metal" := by
  decide

/-- C6 amended: the stored Genres field is the ordered tag-link texts joined
with `", "`; cleaning keeps the prefix of that string before its first comma
(the code splits on `','`, not on the two-character join delimiter), which is
exactly the first entry whenever the first tag text contains no comma; an
absent value reduces to the empty string. -/
theorem c6_genre_reduction :
    (∀ (blk : ReviewBlock) (links : List Link) (score : ℚ) (r : Row),
        blk.entryMeta = some links → parseReview blk score = Except.ok r →
        r.Genres = some (joinComma
          ((links.filter (fun l => strContains l.href (chars "/tag/"))).map Link.text)))
    ∧ (∀ (g : List Char) (rest : List (List Char)), ',' ∉ g →
        reduceGenres (some (joinComma (g :: rest))) = g)
    ∧ reduceGenres none = [] := by
  refine ⟨?_, ?_, rfl⟩
  · intro blk links score r h1 h2
    simp only [parseReview, h1, Except.ok.injEq] at h2
    rw [← h2]
  · intro g rest hg
    cases rest with
    | nil =>
        show g.takeWhile (fun c => c ≠ ',') = g
        exact List.takeWhile_eq_self_iff.mpr
          (fun c hc => decide_eq_true (fun he => hg (he ▸ hc)))
    | cons g2 t =>
        have hj : joinComma (g :: g2 :: t) = g ++ ',' :: ' ' :: joinComma (g2 :: t) := by
          rw [joinComma, show chars ", " = [',', ' '] from rfl]
          simp
        rw [hj]
        exact takeWhile_ne_append ',' g (' ' :: joinComma (g2 :: t)) hg

/-- C6 witness: the amended reduction at a stored two-genre list whose first
entry has no comma. -/
theorem c6_witness :
    (',' ∉ chars "Black Metal") ∧
    reduceGenres (some (joinComma [chars "Black Metal", chars "Shoegaze"])) =
      chars "Black Metal" :=
  ⟨by decide, c6_genre_reduction.2.1 (chars "Black Metal") [chars "Shoegaze"] (by decide)⟩

/-! ### C7: band-list cleaning filter -/

/-- C7 confirmed: `clean_band_list` keeps exactly the whitespace-trimmed
entries that are non-empty, differ from the header token `"0–9"`, are not a
single capital letter, and start with a digit or a capital letter, in input
order; on the spec's example list it returns `["Abigail", "Zorn"]`. -/
theorem c7_clean_band_list :
    clean_band_list [chars "0–9", chars "A", chars "", chars "Abigail", chars "Zorn"] =
      [chars "Abigail", chars "Zorn"]
    ∧ ∀ l : List (List Char), clean_band_list l = (l.map pyStrip).filter keepSpec := by
  refine ⟨by decide, ?_⟩
  intro l
  induction l with
  | nil => rfl
  | cons b t ih =>
      simp only [clean_band_list, List.map_cons, List.filter_cons]
      by_cases h1 : pyStrip b = []
      · have hk : keepSpec (pyStrip b) = false := by simp [keepSpec, h1]
        rw [if_pos h1, hk, ih]
        simp
      · rw [if_neg h1]
        by_cases h2 : pyStrip b = chars "0–9"
        · have hk : keepSpec (pyStrip b) = false := by simp [keepSpec, h2]
          rw [if_pos h2, hk, ih]
          simp
        · rw [if_neg h2]
          by_cases h3 : fullmatchUpper (pyStrip b) = true
          · have hk : keepSpec (pyStrip b) = false := by simp [keepSpec, h3]
            rw [if_pos h3, hk, ih]
            simp
          · rw [if_neg h3]
            by_cases h4 : matchStartAlnumUpper (pyStrip b) = true
            · have hk : keepSpec (pyStrip b) = true := by
                simp [keepSpec, h1, h2, h3, h4, List.isEmpty_iff]
              rw [if_pos h4, hk, ih]
              simp
            · have hk : keepSpec (pyStrip b) = false := by simp [keepSpec, h4]
              rw [if_neg h4, hk, ih]
              simp

/-! ### C10: frame property of the cleaner -/

/-- C10 confirmed: `clean` is a pure per-row map (the Python code copies the
DataFrame before assigning columns), preserving the Band column, the Score
column, the row count and the row order; only Genres and Album change. -/
theorem c10_clean_frame (df : List Row) :
    (clean df).map Row.Band = df.map Row.Band ∧
    (clean df).map Row.Score = df.map Row.Score ∧
    (clean df).length = df.length := by
  refine ⟨?_, ?_, by simp [clean]⟩ <;>
    simp [clean, List.map_map, Function.comp, cleanRow]

/-! ### C8: page-1 failure of a category -/

theorem scrapeCategory_fail (fetch : Nat → PageResult) (score : ℚ) (fuel : Nat)
    (h : (fetch 1).status ≠ 200) : scrapeCategory fetch score fuel 1 = Except.ok [] := by
  cases fuel with
  | zero => rfl
  | succ n => simp [scrapeCategory, h]

/-- C8 confirmed: when page 1 of a category answers with a non-200 status the
pagination loop of that category ends normally with zero records (for any
remaining fuel), and running the whole score mapping with that category
present gives the same result as running it with the category removed — the
remaining categories are all still processed. -/
theorem c8_category_failure (fetch : List Char → Nat → PageResult) (url : List Char)
    (score : ℚ) (fuel : Nat) (pre post : List (List Char × ℚ))
    (h : (fetch url 1).status ≠ 200) :
    scrapeCategory (fetch url) score fuel 1 = Except.ok [] ∧
    scrape fetch fuel (pre ++ (url, score) :: post) = scrape fetch fuel (pre ++ post) := by
  refine ⟨scrapeCategory_fail (fetch url) score fuel h, ?_⟩
  induction pre with
  | nil =>
      simp only [List.nil_append, scrape]
      rw [scrapeCategory_fail (fetch url) score fuel h]
      cases hs : scrape fetch fuel post with
      | error e => rfl
      | ok l => simp
  | cons c pr ih =>
      obtain ⟨u2, s2⟩ := c
      simp only [List.cons_append, scrape, List.append_eq]
      rw [ih]

/-- C8 witness: the theorem at an always-404 fetch and a one-category
mapping. -/
theorem c8_witness :
    (fetch404 (chars "u") 1).status ≠ 200 ∧
    scrapeCategory (fetch404 (chars "u")) 5.0 1 1 = Except.ok [] ∧
    scrape fetch404 1 ([] ++ (chars "u", 5.0) :: []) = scrape fetch404 1 ([] ++ []) :=
  ⟨by decide,
    (c8_category_failure fetch404 (chars "u") 5.0 1 [] [] (by decide)).1,
    (c8_category_failure fetch404 (chars "u") 5.0 1 [] [] (by decide)).2⟩

/-! ### C9: scores come from the category mapping -/

theorem parseReview_score_eq (blk : ReviewBlock) (score : ℚ) (r : Row)
    (h : parseReview blk score = Except.ok r) : r.Score = score := by
  cases hm : blk.entryMeta with
  | none => simp [parseReview, hm] at h
  | some links =>
      simp only [parseReview, hm, Except.ok.injEq] at h
      rw [← h]

theorem mapExcept_score (score : ℚ) :
    ∀ (l : List ReviewBlock) (out : List Row),
      mapExcept (fun rv => parseReview rv score) l = Except.ok out →
      ∀ r ∈ out, r.Score = score := by
  intro l
  induction l with
  | nil =>
      intro out h r hr
      simp only [mapExcept, Except.ok.injEq] at h
      rw [← h] at hr
      simp at hr
  | cons b t ih =>
      intro out h r hr
      simp only [mapExcept] at h
      cases hb : parseReview b score with
      | error e =>
          rw [hb] at h
          exact Except.noConfusion h
      | ok rb =>
          simp only [hb] at h
          cases ht : mapExcept (fun rv => parseReview rv score) t with
          | error e =>
              rw [ht] at h
              exact Except.noConfusion h
          | ok rt =>
              simp only [ht, Except.ok.injEq] at h
              rw [← h] at hr
              rcases List.mem_cons.mp hr with h1 | h1
              · rw [h1]
                exact parseReview_score_eq b score rb hb
              · exact ih rt ht r h1

theorem scrapeCategory_score (fetch : Nat → PageResult) (score : ℚ) :
    ∀ (fuel page : Nat) (out : List Row),
      scrapeCategory fetch score fuel page = Except.ok out →
      ∀ r ∈ out, r.Score = score := by
  intro fuel
  induction fuel with
  | zero =>
      intro page out h r hr
      simp only [scrapeCategory, Except.ok.injEq] at h
      rw [← h] at hr
      simp at hr
  | succ n ih =>
      intro page out h r hr
      simp only [scrapeCategory] at h
      by_cases h200 : (fetch page).status ≠ 200
      · rw [if_pos h200] at h
        simp only [Except.ok.injEq] at h
        rw [← h] at hr
        simp at hr
      · rw [if_neg h200] at h
        by_cases hemp : (fetch page).reviews.isEmpty = true
        · rw [if_pos hemp] at h
          simp only [Except.ok.injEq] at h
          rw [← h] at hr
          simp at hr
        · rw [if_neg hemp] at h
          cases hm : mapExcept (fun rv => parseReview rv score) (fetch page).reviews with
          | error e =>
              rw [hm] at h
              exact Except.noConfusion h
          | ok recs =>
              simp only [hm] at h
              cases hs : scrapeCategory fetch score n (page + 1) with
              | error e =>
                  rw [hs] at h
                  exact Except.noConfusion h
              | ok rest =>
                  simp only [hs, Except.ok.injEq] at h
                  rw [← h] at hr
                  rcases List.mem_append.mp hr with h1 | h1
                  · exact mapExcept_score score _ recs hm r h1
                  · exact ih (page + 1) rest hs r h1

theorem scrape_scores (fetch : List Char → Nat → PageResult) (fuel : Nat) :
    ∀ (cats : List (List Char × ℚ)) (out : List Row),
      scrape fetch fuel cats = Except.ok out →
      ∀ r ∈ out, r.Score ∈ cats.map Prod.snd := by
  intro cats
  induction cats with
  | nil =>
      intro out h r hr
      simp only [scrape, Except.ok.injEq] at h
      rw [← h] at hr
      simp at hr
  | cons c rest ih =>
      obtain ⟨u, s⟩ := c
      intro out h r hr
      simp only [scrape] at h
      cases hc : scrapeCategory (fetch u) s fuel 1 with
      | error e =>
          rw [hc] at h
          exact Except.noConfusion h
      | ok recs =>
          simp only [hc] at h
          cases hs : scrape fetch fuel rest with
          | error e =>
              rw [hs] at h
              exact Except.noConfusion h
          | ok more =>
              simp only [hs, Except.ok.injEq] at h
              rw [← h] at hr
              simp only [List.map_cons]
              rcases List.mem_append.mp hr with h1 | h1
              · rw [scrapeCategory_score (fetch u) s fuel 1 recs hc r h1]
                exact List.mem_cons_self _ _
              · exact List.mem_cons_of_mem _ (ih more hs r h1)

/-- C9 confirmed: every record of a successful run over `SCORE_TAG_URLS`
carries the score mapped to its category URL, so every Score is one of the
mapping's ten discrete values. -/
theorem c9_scores_discrete (fetch : List Char → Nat → PageResult) (fuel : Nat)
    (recs : List Row) (h : scrape fetch fuel SCORE_TAG_URLS = Except.ok recs) :
    ∀ r ∈ recs, r.Score ∈
      [(5.0 : ℚ), 4.5, 4.0, 3.5, 3.0, 2.5, 2.0, 1.5, 1.0, 0.5] := by
  intro r hr
  have hmem := scrape_scores fetch fuel SCORE_TAG_URLS recs h r hr
  rwa [show SCORE_TAG_URLS.map Prod.snd =
    [(5.0 : ℚ), 4.5, 4.0, 3.5, 3.0, 2.5, 2.0, 1.5, 1.0, 0.5] from rfl] at hmem

/-- C9 witness: a concrete run through `wfetch` produces exactly one record,
whose score 5.0 is among the ten discrete values. -/
theorem c9_witness :
    scrape wfetch 1 SCORE_TAG_URLS = Except.ok [wrow] ∧
    wrow.Score ∈ [(5.0 : ℚ), 4.5, 4.0, 3.5, 3.0, 2.5, 2.0, 1.5, 1.0, 0.5] :=
  ⟨rfl, c9_scores_discrete wfetch 1 [wrow] rfl wrow (by simp)⟩

end HeavyMetal
